import Mathlib

/-!
Verification of the cart-game simulation core (`cartgame.py`).

The game has exactly three resources (iron, copper, gold).  Every
resource-indexed Python dict (`cart.contents`, `station.storage`,
`resource_selling_enabled`, `market_prices`) is embedded as a record with
one field per resource; a key absent from the Python dict corresponds to
the default value (`0`, resp. `true`/base value) because the code always
reads through `.get(r, 0)` or initialises every key.

Python integers are embedded as `Int`, Python floats (money, prices,
momentum, stat multipliers) as `ℚ` (the float rounding of the source is
not modelled; every claim below is about comparisons, clamps and exact
small products, which behave identically).

Loops `for r in d.items()` are embedded as structural recursion over an
explicit list of resources giving the dict's iteration order.  The
station's storage dict is created once with insertion order
iron, copper, gold and never gains keys, so its order is fixed; the
cart-contents dict order depends on mining history, so functions that
iterate over cart contents are parametrised by an arbitrary `order` list.
-/

/-- The three tradable resources (`self.resources` keys). -/
inductive Res where
  | iron
  | copper
  | gold
deriving DecidableEq

/-- Iteration order of `station.storage` (insertion order in
`Station.__init__`, never extended afterwards). -/
def resOrder : List Res := [Res.iron, Res.copper, Res.gold]

/-- A resource→int mapping (cart `contents` or station `storage`). -/
structure ResMap where
  iron : Int
  copper : Int
  gold : Int
deriving DecidableEq

namespace ResMap

/-- Dict lookup `d.get(r, 0)` / `d[r]`. -/
def get (v : ResMap) : Res → Int
  | Res.iron => v.iron
  | Res.copper => v.copper
  | Res.gold => v.gold

/-- Dict store `d[r] = a`. -/
def set (v : ResMap) : Res → Int → ResMap
  | Res.iron, a => { v with iron := a }
  | Res.copper, a => { v with copper := a }
  | Res.gold, a => { v with gold := a }

/-- Sum of the dict values, `sum(d.values())`. -/
def total (v : ResMap) : Int := v.iron + v.copper + v.gold

/-- The empty dict `{}`. -/
def empty : ResMap := ⟨0, 0, 0⟩

theorem get_set_self (v : ResMap) (r : Res) (a : Int) : (v.set r a).get r = a := by
  cases r <;> rfl

theorem get_set_ne (v : ResMap) (r r' : Res) (a : Int) (h : r ≠ r') :
    (v.set r a).get r' = v.get r' := by
  cases r <;> cases r' <;> first
    | rfl
    | exact absurd rfl h

theorem total_set (v : ResMap) (r : Res) (a : Int) :
    (v.set r a).total = v.total - v.get r + a := by
  cases r <;> simp [set, get, total] <;> ring

end ResMap

/-- A resource→bool mapping (`resource_selling_enabled`). -/
structure Flags where
  iron : Bool
  copper : Bool
  gold : Bool
deriving DecidableEq

def Flags.get (f : Flags) : Res → Bool
  | Res.iron => f.iron
  | Res.copper => f.copper
  | Res.gold => f.gold

/-- Constant `station.storage_capacity` (value `1000`, never mutated in the
simulation core — the `storage` upgrade multiplier is computed but not
applied). -/
def storageCapacity : Int := 1000

/-- Method `Cart.is_full`: `sum(self.contents.values()) >= self.capacity`. -/
def isFull (contents : ResMap) (capacity : Int) : Bool :=
  contents.total ≥ capacity

/-- One iteration of the loop body in `MiningGame.transfer_to_station`:
`transfer_amount = min(amount, storage_capacity - sum(storage.values()))`;
`if transfer_amount > 0: storage[r] += transfer_amount; cart[r] = 0`.
Note that the cart entry is set to `0` even when the transfer was
partial.  `transferLoop order cart storage` runs the loop over the
cart-contents dict in iteration order `order`; it returns the final
(cart contents, station storage) pair. -/
def transferLoop : List Res → ResMap → ResMap → ResMap × ResMap
  | [], cart, storage => (cart, storage)
  | r :: rs, cart, storage =>
      let amount := cart.get r
      let t := min amount (storageCapacity - storage.total)
      if 0 < t then
        transferLoop rs (cart.set r 0) (storage.set r (storage.get r + t))
      else
        transferLoop rs cart storage

/-- The extraction loop inside `update_mining_cart` (`for resource_name,
resource in self.resources.items(): if random.random() < rarity *
mining_speed * dt * 2: contents[r] = contents.get(r, 0) + 1`).  Each
per-resource Bernoulli draw is abstracted as the boolean `succ r`; the
iteration order of `self.resources` is fixed (iron, copper, gold). -/
def extractLoop (succ : Res → Bool) : List Res → ResMap → ResMap
  | [], c => c
  | r :: rs, c => extractLoop succ rs (if succ r then c.set r (c.get r + 1) else c)

/-- The contents effect of a mining cart standing at the mine:
`if not cart.is_full():` run the extraction loop (lines 258–262). -/
def miningExtraction (succ : Res → Bool) (capacity : Int) (c : ResMap) : ResMap :=
  if isFull c capacity then c else extractLoop succ resOrder c

/-- The loop of `MiningGame.load_from_station` (lines 341–351) over
`station.storage.items()` (fixed order iron, copper, gold), threading
`space_left` and `loaded_something` and breaking when `space_left <= 0`.
Returns `(loaded_something, cart contents, station storage)`. -/
def loadLoop (enabled : Flags) : List Res → ResMap → ResMap → Int → Bool →
    Bool × ResMap × ResMap
  | [], cart, storage, _, loaded => (loaded, cart, storage)
  | r :: rs, cart, storage, space, loaded =>
      let amount := storage.get r
      if 0 < amount ∧ enabled.get r = true then
        let t := min amount space
        let cart' := cart.set r (cart.get r + t)
        let storage' := storage.set r (amount - t)
        if space - t ≤ 0 then (true, cart', storage')
        else loadLoop enabled rs cart' storage' (space - t) true
      else
        if space ≤ 0 then (loaded, cart, storage)
        else loadLoop enabled rs cart storage space loaded

/-- Method `MiningGame.load_from_station`: returns `False` unchanged when the cart
is full, otherwise runs the loading loop starting from
`space_left = cart.capacity - cart.get_contents_amount()`. -/
def loadFromStation (capacity : Int) (cart storage : ResMap) (enabled : Flags) :
    Bool × ResMap × ResMap :=
  if isFull cart capacity then (false, cart, storage)
  else loadLoop enabled resOrder cart storage (capacity - cart.total) false

/-- The loop of `MiningGame.sell_cart_resources` over
`cart.contents.items()` (iteration order `order` of the cart's dict):
`if amount > 0: money += market_prices[r] * amount; contents[r] = 0`.
Returns the final `(station money, cart contents)`. -/
def sellLoop (prices : Res → ℚ) : List Res → ResMap → ℚ → ℚ × ResMap
  | [], c, money => (money, c)
  | r :: rs, c, money =>
      if 0 < c.get r then
        sellLoop prices rs (c.set r 0) (money + prices r * (c.get r : ℚ))
      else
        sellLoop prices rs c money

/-- Total sale value of a cart: the sum over its positive entries of
`market_prices[r] * amount` (the amount `sell_cart_resources` adds to
`station.money`). -/
def soldValue (prices : Res → ℚ) (c : ResMap) : ℚ :=
  (if 0 < c.iron then prices Res.iron * (c.iron : ℚ) else 0)
    + (if 0 < c.copper then prices Res.copper * (c.copper : ℚ) else 0)
    + (if 0 < c.gold then prices Res.gold * (c.gold : ℚ) else 0)

/-- A cart's contents with every positive entry reset to `0` (the cart
state `sell_cart_resources` leaves behind). -/
def zeroPositives (c : ResMap) : ResMap :=
  ⟨if 0 < c.iron then 0 else c.iron,
   if 0 < c.copper then 0 else c.copper,
   if 0 < c.gold then 0 else c.gold⟩

/-- Constant `PRICE_MOMENTUM_FACTOR = 0.7`. -/
def PRICE_MOMENTUM_FACTOR : ℚ := 0.7

/-- Constant `PRICE_VOLATILITY = 0.03` (the random force is drawn uniformly from
`[-PRICE_VOLATILITY, PRICE_VOLATILITY]`; the theorems below hold for an
arbitrary force, which subsumes that range). -/
def PRICE_VOLATILITY : ℚ := 0.03

/-- One price update for one resource (`update_market_prices` body, lines
211–227): momentum smoothing, multiplicative price move, then the clamp
`max(base*0.5, min(base*2.0, new_price))`.  The pair is
`(current_price, momentum)`; `force` is the uniform draw. -/
def priceStep (base : ℚ) (pm : ℚ × ℚ) (force : ℚ) : ℚ × ℚ :=
  let m := pm.2 * PRICE_MOMENTUM_FACTOR + force * (1 - PRICE_MOMENTUM_FACTOR)
  let np := pm.1 * (1 + m)
  (max (base * 0.5) (min (base * 2.0) np), m)

/-- The price/momentum pair after a sequence of update steps, starting
from the initial state (`market_prices[r] = base_value`,
`price_momentum[r] = 0.0`). -/
def priceRun (base : ℚ) (forces : List ℚ) : ℚ × ℚ :=
  forces.foldl (priceStep base) (base, 0)

/-- Constant `PRICE_HISTORY_LENGTH = 50`. -/
def PRICE_HISTORY_LENGTH : Nat := 50

/-- Initial price history: `[price] * PRICE_HISTORY_LENGTH`. -/
def initHistory (p : ℚ) : List ℚ := List.replicate PRICE_HISTORY_LENGTH p

/-- One history update (lines 230–231): `history.pop(0)` (drop the oldest,
i.e. first, element — well-defined since the history is never empty)
followed by `history.append(new_price)`. -/
def historyStep (h : List ℚ) (p : ℚ) : List ℚ := h.tail ++ [p]

/-- Constant `POSITION_TOLERANCE = 10`. -/
def POSITION_TOLERANCE : ℚ := 10

/-- The arrival test shared by all four cart-movement branches: the source
computes `dist = (dx**2 + dy**2) ** 0.5` and tests
`dist < POSITION_TOLERANCE`.  Both sides are nonnegative, so this is
equivalent to `dx^2 + dy^2 < POSITION_TOLERANCE^2`, which is how we state
it over `ℚ` (exact square roots do not exist in `ℚ`).  When this test
fails the source divides `dx` and `dy` by `dist` to normalise the
direction vector. -/
def arrivedQ (dx dy : ℚ) : Bool := dx ^ 2 + dy ^ 2 < POSITION_TOLERANCE ^ 2

/-- Python `int(q)`: truncation toward zero (the `q.den` is positive, so
`tdiv` on `num/den` truncates toward zero exactly as Python's `int`). -/
def pyInt (q : ℚ) : Int := q.num.tdiv (q.den : Int)

/-- The five upgrade kinds (`station.upgrade_costs` keys; calling
`upgrade` with any other string hits the `cost is None` warning branch and
is not representable here). -/
inductive UKind where
  | capacity
  | speed
  | mining
  | processing
  | storage
deriving DecidableEq

/-- Table `station.upgrade_costs` (mutable: each purchase multiplies its own
entry by 1.5, truncated to int). -/
structure UCosts where
  capacity : Int
  speed : Int
  mining : Int
  processing : Int
  storage : Int
deriving DecidableEq

def UCosts.get (c : UCosts) : UKind → Int
  | UKind.capacity => c.capacity
  | UKind.speed => c.speed
  | UKind.mining => c.mining
  | UKind.processing => c.processing
  | UKind.storage => c.storage

def UCosts.set (c : UCosts) : UKind → Int → UCosts
  | UKind.capacity, a => { c with capacity := a }
  | UKind.speed, a => { c with speed := a }
  | UKind.mining, a => { c with mining := a }
  | UKind.processing, a => { c with processing := a }
  | UKind.storage, a => { c with storage := a }

/-- Initial `upgrade_costs` from `Station.__init__`. -/
def initCosts : UCosts := ⟨1000, 1500, 2000, 2500, 3000⟩

/-- Table `station.upgrade_multipliers` (never mutated). -/
def upgradeMultiplier : UKind → ℚ
  | UKind.capacity => 1.5
  | UKind.speed => 1.3
  | UKind.mining => 1.4
  | UKind.processing => 1.2
  | UKind.storage => 2.0

/-- Global `self.cart_stats` (capacity 50, speed 100, mining 3.0). -/
structure CartStats where
  capacity : ℚ
  speed : ℚ
  mining : ℚ
deriving DecidableEq

def initStats : CartStats := ⟨50, 100, 3⟩

inductive CartType where
  | mining
  | market
deriving DecidableEq

inductive CartState where
  | mining
  | returning
  | loading
  | selling
deriving DecidableEq

/-- The `Cart` dataclass.  Its annotations declare `capacity: int` and
`contents: Dict[str, int]`, which we embed as `Int`; positions and the
float-annotated stats are `ℚ`. -/
structure Cart where
  x : ℚ
  y : ℚ
  capacity : Int
  speed : ℚ
  mining_speed : ℚ
  contents : ResMap
  cart_type : CartType
  state : CartState
deriving DecidableEq

/-- Position `self.station_pos = (SCREEN_WIDTH // 2, SCREEN_HEIGHT // 2)`. -/
def stationPos : ℚ × ℚ := (720, 450)

/-- The state touched by the command interface (`add_cart`, `upgrade`):
station money, global cart stats, the cart list and the upgrade costs. -/
structure GameState where
  money : ℚ
  stats : CartStats
  carts : List Cart
  costs : UCosts
deriving DecidableEq

/-- Method `MiningGame.add_cart`: cost 500; on success deduct it and append a
fresh cart at the station position built from the global stats, with the
role-appropriate initial state.  (`cart_stats["capacity"]` is declared
int in the `Cart` dataclass; `pyInt` realises that coercion here.) -/
def addCart (g : GameState) (t : CartType) : Bool × GameState :=
  if g.money ≥ (500 : ℚ) then
    (true,
      { g with
        money := g.money - 500,
        carts := g.carts ++
          [{ x := stationPos.1, y := stationPos.2,
             capacity := pyInt g.stats.capacity,
             speed := g.stats.speed,
             mining_speed := g.stats.mining,
             contents := ResMap.empty,
             cart_type := t,
             state := if t = CartType.mining then CartState.mining
                      else CartState.loading }] })
  else (false, g)

/-- Method `MiningGame.upgrade`: if `money >= cost`, deduct the cost, multiply
the matching global cart stat (when the kind has one — `processing` and
`storage` only escalate their cost), propagate the new value to every
existing cart (capacity coerced with `int(...)`), and set the next cost to
`int(cost * 1.5)`.  Otherwise return `False` with everything unchanged. -/
def upgrade (g : GameState) (k : UKind) : Bool × GameState :=
  let cost := g.costs.get k
  if g.money ≥ (cost : ℚ) then
    let mult := upgradeMultiplier k
    let g1 : GameState := { g with money := g.money - (cost : ℚ) }
    let g2 : GameState :=
      match k with
      | UKind.capacity =>
          let nv := g1.stats.capacity * mult
          { g1 with
            stats := { g1.stats with capacity := nv },
            carts := g1.carts.map (fun c => { c with capacity := pyInt nv }) }
      | UKind.speed =>
          let nv := g1.stats.speed * mult
          { g1 with
            stats := { g1.stats with speed := nv },
            carts := g1.carts.map (fun c => { c with speed := nv }) }
      | UKind.mining =>
          let nv := g1.stats.mining * mult
          { g1 with
            stats := { g1.stats with mining := nv },
            carts := g1.carts.map (fun c => { c with mining_speed := nv }) }
      | _ => g1
    (true, { g2 with costs := g2.costs.set k (pyInt ((cost : ℚ) * 1.5)) })
  else (false, g)

/-- Methods `convert_to_mining` / `convert_to_market` applied to the selected
cart: role and state reset, contents cleared (`cart.contents = {}`). -/
def convertCart (t : CartType) (c : Cart) : Cart :=
  { c with
    cart_type := t,
    state := if t = CartType.mining then CartState.mining else CartState.loading,
    contents := ResMap.empty }

/-- The contents/state effect of one `update_mining_cart` tick.  The
geometric half (distance test, movement, position snapping) never touches
`contents`; the two arrival tests (`arrivedQ` on the vectors to the mine
and to the station) are passed in as the booleans `atMine`/`atStation`,
and the extraction draws as `succ`.  `order` is the iteration order of
the cart's contents dict used by `transfer_to_station`. -/
def miningTick (atMine atStation : Bool) (succ : Res → Bool) (order : List Res)
    (capacity : Int) (st : CartState) (contents storage : ResMap) :
    CartState × ResMap × ResMap :=
  match st with
  | CartState.mining =>
      if atMine then
        let c := miningExtraction succ capacity contents
        if isFull c capacity then (CartState.returning, c, storage)
        else (CartState.mining, c, storage)
      else (CartState.mining, contents, storage)
  | CartState.returning =>
      if atStation then
        let cs := transferLoop order contents storage
        (CartState.mining, cs.1, cs.2)
      else (CartState.returning, contents, storage)
  | s => (s, contents, storage)

/-- The contents/state/money effect of one `update_market_cart` tick, with
the two arrival tests abstracted as booleans as in `miningTick` and
`order` the iteration order of the cart's contents dict used by
`sell_cart_resources`. -/
def marketTick (atStation atMarket : Bool) (enabled : Flags) (prices : Res → ℚ)
    (order : List Res) (capacity : Int) (st : CartState)
    (contents storage : ResMap) (money : ℚ) :
    CartState × ResMap × ResMap × ℚ :=
  match st with
  | CartState.loading =>
      if atStation then
        let r := loadFromStation capacity contents storage enabled
        if r.1 then (CartState.selling, r.2.1, r.2.2, money)
        else (CartState.loading, r.2.1, r.2.2, money)
      else (CartState.loading, contents, storage, money)
  | CartState.selling =>
      if atMarket then
        let mc := sellLoop prices order contents money
        (CartState.loading, mc.2, storage, mc.1)
      else (CartState.selling, contents, storage, money)
  | s => (s, contents, storage, money)

/-! ## Helper lemmas -/

theorem mem_resOrder (r : Res) : r ∈ resOrder := by
  cases r <;> simp [resOrder]

/-- The transfer loop never increases the combined cart+station total
(but it can strictly decrease it, see the counterexample below). -/
theorem transferLoop_total_le (order : List Res) :
    ∀ cart storage : ResMap,
      (transferLoop order cart storage).1.total
          + (transferLoop order cart storage).2.total
        ≤ cart.total + storage.total := by
  induction order with
  | nil => intro cart storage; simp [transferLoop]
  | cons r rs ih =>
      intro cart storage
      simp only [transferLoop]
      split
      · have h1 := ih (cart.set r 0)
          (storage.set r
            (storage.get r + min (cart.get r) (storageCapacity - storage.total)))
        have h2 := ResMap.total_set cart r 0
        have h3 := ResMap.total_set storage r
          (storage.get r + min (cart.get r) (storageCapacity - storage.total))
        have h4 : min (cart.get r) (storageCapacity - storage.total) ≤ cart.get r :=
          min_le_left _ _
        omega
      · exact ih cart storage

/-- C1 counterexample: a mining cart holding 5 iron arrives while the
station has 3 units of free space (storage 0/500/497 of 1000).  The code
stores the 3 fitting units but sets the cart's iron to 0, so 2 units
vanish: the combined total drops from 1002 to 1000.  This refutes the
claimed conservation ("the remainder of that resource stays in the cart,
no units are discarded"). -/
theorem transfer_conservation_counterexample :
    (transferLoop resOrder ⟨5, 0, 0⟩ ⟨0, 500, 497⟩).1.total
        + (transferLoop resOrder ⟨5, 0, 0⟩ ⟨0, 500, 497⟩).2.total
      ≠ ResMap.total ⟨5, 0, 0⟩ + ResMap.total ⟨0, 500, 497⟩ := by
  decide

/-- C1 (amended): `transfer_to_station` adds only the fitting part
`min(cart_amount, free_space)` of each resource to station storage, but on
any positive transfer it resets that cart entry to 0 — so a partial
transfer discards the remainder.  Consequently the combined cart+station
total never increases, but it is not conserved. -/
theorem transfer_to_station_discard :
    (∀ (order : List Res) (cart storage : ResMap),
        (transferLoop order cart storage).1.total
            + (transferLoop order cart storage).2.total
          ≤ cart.total + storage.total)
    ∧ (∀ (cart storage : ResMap) (r : Res),
        0 < min (cart.get r) (storageCapacity - storage.total) →
          (transferLoop [r] cart storage).2.get r
              = storage.get r + min (cart.get r) (storageCapacity - storage.total)
            ∧ (transferLoop [r] cart storage).1.get r = 0) := by
  constructor
  · exact fun order => transferLoop_total_le order
  · intro cart storage r h
    simp only [transferLoop, if_pos h]
    exact ⟨ResMap.get_set_self _ _ _, ResMap.get_set_self _ _ _⟩

/-- Witness for `transfer_to_station_discard` at the counterexample input:
5 iron against 3 units of free space. -/
theorem transfer_to_station_discard_witness :
    ((transferLoop resOrder ⟨5, 0, 0⟩ ⟨0, 500, 497⟩).1.total
          + (transferLoop resOrder ⟨5, 0, 0⟩ ⟨0, 500, 497⟩).2.total
        ≤ ResMap.total ⟨5, 0, 0⟩ + ResMap.total ⟨0, 500, 497⟩)
      ∧ ((transferLoop [Res.iron] ⟨5, 0, 0⟩ ⟨0, 500, 497⟩).2.get Res.iron
            = ResMap.get ⟨0, 500, 497⟩ Res.iron
                + min (ResMap.get ⟨5, 0, 0⟩ Res.iron)
                    (storageCapacity - ResMap.total ⟨0, 500, 497⟩)
          ∧ (transferLoop [Res.iron] ⟨5, 0, 0⟩ ⟨0, 500, 497⟩).1.get Res.iron = 0) :=
  ⟨transfer_to_station_discard.1 resOrder ⟨5, 0, 0⟩ ⟨0, 500, 497⟩,
   transfer_to_station_discard.2 ⟨5, 0, 0⟩ ⟨0, 500, 497⟩ Res.iron (by decide)⟩

/-- The transfer loop never increases the cart's own total. -/
theorem transferLoop_cart_le (order : List Res) :
    ∀ cart storage : ResMap,
      (transferLoop order cart storage).1.total ≤ cart.total := by
  induction order with
  | nil => intro cart storage; simp [transferLoop]
  | cons r rs ih =>
      intro cart storage
      simp only [transferLoop]
      split
      · have h1 := ih (cart.set r 0)
          (storage.set r
            (storage.get r + min (cart.get r) (storageCapacity - storage.total)))
        have h2 := ResMap.total_set cart r 0
        rename_i hpos
        have h4 : 0 < min (cart.get r) (storageCapacity - storage.total) := hpos
        have h5 : min (cart.get r) (storageCapacity - storage.total) ≤ cart.get r :=
          min_le_left _ _
        omega
      · exact ih cart storage

/-- Each extraction pass adds at most one unit per visited resource. -/
theorem extractLoop_total_le (succ : Res → Bool) :
    ∀ (rs : List Res) (c : ResMap),
      (extractLoop succ rs c).total ≤ c.total + rs.length := by
  intro rs
  induction rs with
  | nil => intro c; simp [extractLoop]
  | cons r rs ih =>
      intro c
      simp only [extractLoop]
      have h1 := ih (if succ r then c.set r (c.get r + 1) else c)
      have h2 : (if succ r then c.set r (c.get r + 1) else c).total ≤ c.total + 1 := by
        split
        · have := ResMap.total_set c r (c.get r + 1)
          omega
        · omega
      simp only [List.length_cons]
      omega

/-- Extraction runs only when the total is strictly below capacity and
adds at most 3 (one per resource), so it preserves `total ≤ capacity + 2`. -/
theorem miningExtraction_bound (succ : Res → Bool) (capacity : Int) (c : ResMap)
    (h : c.total ≤ capacity + 2) :
    (miningExtraction succ capacity c).total ≤ capacity + 2 := by
  unfold miningExtraction
  split
  · exact h
  · rename_i hfull
    have hlt : c.total < capacity := by
      simpa [isFull, not_le] using hfull
    have h5 := extractLoop_total_le succ resOrder c
    simp only [resOrder, List.length_cons, List.length_nil] at h5 ⊢
    norm_num at h5
    omega

/-- Once `loaded_something` is `True` it stays `True`. -/
theorem loadLoop_loaded_true (enabled : Flags) :
    ∀ (rs : List Res) (cart storage : ResMap) (space : Int),
      (loadLoop enabled rs cart storage space true).1 = true := by
  intro rs
  induction rs with
  | nil => intro cart storage space; simp [loadLoop]
  | cons r rs ih =>
      intro cart storage space
      simp only [loadLoop]
      split
      · split
        · rfl
        · apply ih
      · split
        · rfl
        · apply ih

/-- The loading loop never removes anything from the cart (entered with
nonnegative remaining space, as every reachable call is). -/
theorem loadLoop_total_mono (enabled : Flags) :
    ∀ (rs : List Res) (cart storage : ResMap) (space : Int) (loaded : Bool),
      0 ≤ space →
      cart.total ≤ (loadLoop enabled rs cart storage space loaded).2.1.total := by
  intro rs
  induction rs with
  | nil => intro cart storage space loaded _; simp [loadLoop]
  | cons r rs ih =>
      intro cart storage space loaded hsp
      simp only [loadLoop]
      split
      · rename_i hel
        have ht0 : 0 ≤ min (storage.get r) space := le_min (le_of_lt hel.1) hsp
        have ht1 : min (storage.get r) space ≤ space := min_le_right _ _
        have h2 := ResMap.total_set cart r (cart.get r + min (storage.get r) space)
        split
        · simp only
          omega
        · have h3 := ih (cart.set r (cart.get r + min (storage.get r) space))
            (storage.set r (storage.get r - min (storage.get r) space))
            (space - min (storage.get r) space) true (by omega)
          omega
      · split
        · simp
        · exact ih cart storage space loaded hsp

/-- The loading loop adds at most `space` units in total. -/
theorem loadLoop_total_le (enabled : Flags) :
    ∀ (rs : List Res) (cart storage : ResMap) (space : Int) (loaded : Bool),
      0 ≤ space →
      (loadLoop enabled rs cart storage space loaded).2.1.total ≤ cart.total + space := by
  intro rs
  induction rs with
  | nil => intro cart storage space loaded _; simp [loadLoop]; omega
  | cons r rs ih =>
      intro cart storage space loaded hsp
      simp only [loadLoop]
      split
      · rename_i hel
        have ht1 : min (storage.get r) space ≤ space := min_le_right _ _
        have h2 := ResMap.total_set cart r (cart.get r + min (storage.get r) space)
        split
        · simp only
          omega
        · rename_i hbrk
          have h3 := ih (cart.set r (cart.get r + min (storage.get r) space))
            (storage.set r (storage.get r - min (storage.get r) space))
            (space - min (storage.get r) space) true (by omega)
          omega
      · split
        · simp; omega
        · exact ih cart storage space loaded hsp

/-- A resource whose sale is disabled is never touched by the loading
loop, in the cart or in station storage. -/
theorem loadLoop_disabled_untouched (enabled : Flags) (r : Res)
    (hr : enabled.get r = false) :
    ∀ (rs : List Res) (cart storage : ResMap) (space : Int) (loaded : Bool),
      (loadLoop enabled rs cart storage space loaded).2.1.get r = cart.get r
        ∧ (loadLoop enabled rs cart storage space loaded).2.2.get r = storage.get r := by
  intro rs
  induction rs with
  | nil => intro cart storage space loaded; simp [loadLoop]
  | cons r' rs ih =>
      intro cart storage space loaded
      simp only [loadLoop]
      split
      · rename_i hel
        have hne : r' ≠ r := by
          intro h
          rw [h, hr] at hel
          exact absurd hel.2 (by simp)
        split
        · exact ⟨ResMap.get_set_ne _ _ _ _ hne, ResMap.get_set_ne _ _ _ _ hne⟩
        · have h1 := ih
            (cart.set r' (cart.get r' + min (storage.get r') space))
            (storage.set r' (storage.get r' - min (storage.get r') space))
            (space - min (storage.get r') space) true
          rw [ResMap.get_set_ne _ _ _ _ hne, ResMap.get_set_ne _ _ _ _ hne] at h1
          exact h1
      · split
        · exact ⟨rfl, rfl⟩
        · exact ih cart storage space loaded

/-- A resource with nonpositive station stock is never touched by the
loading loop. -/
theorem loadLoop_nonpos_untouched (enabled : Flags) (r : Res) :
    ∀ (rs : List Res) (cart storage : ResMap) (space : Int) (loaded : Bool),
      storage.get r ≤ 0 →
      (loadLoop enabled rs cart storage space loaded).2.1.get r = cart.get r
        ∧ (loadLoop enabled rs cart storage space loaded).2.2.get r = storage.get r := by
  intro rs
  induction rs with
  | nil => intro cart storage space loaded _; simp [loadLoop]
  | cons r' rs ih =>
      intro cart storage space loaded hst
      simp only [loadLoop]
      split
      · rename_i hel
        have hne : r' ≠ r := by
          intro h
          rw [h] at hel
          omega
        split
        · exact ⟨ResMap.get_set_ne _ _ _ _ hne, ResMap.get_set_ne _ _ _ _ hne⟩
        · have h1 := ih
            (cart.set r' (cart.get r' + min (storage.get r') space))
            (storage.set r' (storage.get r' - min (storage.get r') space))
            (space - min (storage.get r') space) true
            (by rw [ResMap.get_set_ne _ _ _ _ hne]; exact hst)
          rw [ResMap.get_set_ne _ _ _ _ hne, ResMap.get_set_ne _ _ _ _ hne] at h1
          exact h1
      · split
        · exact ⟨rfl, rfl⟩
        · exact ih cart storage space loaded hst

/-- The loading loop moves units between station storage and the cart:
per resource, the combined amount is preserved. -/
theorem loadLoop_conserve (enabled : Flags) (r : Res) :
    ∀ (rs : List Res) (cart storage : ResMap) (space : Int) (loaded : Bool),
      (loadLoop enabled rs cart storage space loaded).2.1.get r
          + (loadLoop enabled rs cart storage space loaded).2.2.get r
        = cart.get r + storage.get r := by
  intro rs
  induction rs with
  | nil => intro cart storage space loaded; simp [loadLoop]
  | cons r' rs ih =>
      intro cart storage space loaded
      simp only [loadLoop]
      split
      · rename_i hel
        rcases eq_or_ne r' r with rfl | hne
        · split
          · simp only [ResMap.get_set_self]
            ring
          · have h1 := ih
              (cart.set r' (cart.get r' + min (storage.get r') space))
              (storage.set r' (storage.get r' - min (storage.get r') space))
              (space - min (storage.get r') space) true
            rw [ResMap.get_set_self, ResMap.get_set_self] at h1
            omega
        · split
          · rw [ResMap.get_set_ne _ _ _ _ hne, ResMap.get_set_ne _ _ _ _ hne]
          · have h1 := ih
              (cart.set r' (cart.get r' + min (storage.get r') space))
              (storage.set r' (storage.get r' - min (storage.get r') space))
              (space - min (storage.get r') space) true
            rw [ResMap.get_set_ne _ _ _ _ hne, ResMap.get_set_ne _ _ _ _ hne] at h1
            exact h1
      · split
        · rfl
        · exact ih cart storage space loaded

/-- Entered with at least one unit of space (as `load_from_station` does
whenever the cart is not full), the loop reports `True` exactly when the
cart total strictly increased. -/
theorem loadLoop_loaded_iff (enabled : Flags) :
    ∀ (rs : List Res) (cart storage : ResMap) (space : Int),
      1 ≤ space →
      ((loadLoop enabled rs cart storage space false).1 = true ↔
        cart.total < (loadLoop enabled rs cart storage space false).2.1.total) := by
  intro rs
  induction rs with
  | nil => intro cart storage space _; simp [loadLoop]
  | cons r' rs ih =>
      intro cart storage space hsp
      simp only [loadLoop]
      split
      · rename_i hel
        have ht1 : 1 ≤ min (storage.get r') space := le_min hel.1 hsp
        have h2 := ResMap.total_set cart r' (cart.get r' + min (storage.get r') space)
        split
        · simp only [true_iff]
          omega
        · rename_i hbrk
          have h3 := loadLoop_loaded_true enabled rs
            (cart.set r' (cart.get r' + min (storage.get r') space))
            (storage.set r' (storage.get r' - min (storage.get r') space))
            (space - min (storage.get r') space)
          have h4 := loadLoop_total_mono enabled rs
            (cart.set r' (cart.get r' + min (storage.get r') space))
            (storage.set r' (storage.get r' - min (storage.get r') space))
            (space - min (storage.get r') space) true (by omega)
          rw [h3]
          simp only [true_iff]
          omega
      · split
        · omega
        · exact ih cart storage space hsp

/-- Selling never adds to the cart: every visited positive entry is
zeroed and nothing else changes. -/
theorem sellLoop_total_le (prices : Res → ℚ) :
    ∀ (order : List Res) (c : ResMap) (money : ℚ),
      (sellLoop prices order c money).2.total ≤ c.total := by
  intro order
  induction order with
  | nil => intro c money; simp [sellLoop]
  | cons r rs ih =>
      intro c money
      simp only [sellLoop]
      split
      · rename_i hpos
        have h1 := ih (c.set r 0) (money + prices r * (c.get r : ℚ))
        have h2 := ResMap.total_set c r 0
        omega
      · exact ih c money

theorem soldValue_set_zero (prices : Res → ℚ) (c : ResMap) (r : Res)
    (h : 0 < c.get r) :
    soldValue prices (c.set r 0) = soldValue prices c - prices r * (c.get r : ℚ) := by
  cases r <;>
    simp only [ResMap.get] at h <;>
    simp [soldValue, ResMap.set, ResMap.get, h] <;>
    ring

theorem zeroPositives_set_zero (c : ResMap) (r : Res) (h : 0 < c.get r) :
    zeroPositives (c.set r 0) = zeroPositives c := by
  cases r <;>
    simp only [ResMap.get] at h <;>
    simp [zeroPositives, ResMap.set, h]

/-- The selling loop, run over any iteration order covering every
positive entry (as the contents dict's key set always does), adds the
cart's sale value to the money and zeroes every positive entry. -/
theorem sellLoop_spec (prices : Res → ℚ) :
    ∀ (order : List Res) (c : ResMap) (money : ℚ),
      (∀ r, 0 < c.get r → r ∈ order) →
      sellLoop prices order c money = (money + soldValue prices c, zeroPositives c) := by
  intro order
  induction order with
  | nil =>
      intro c money h
      have hi : ¬ (0 : Int) < c.iron := fun hpos => by simpa using h Res.iron hpos
      have hc : ¬ (0 : Int) < c.copper := fun hpos => by simpa using h Res.copper hpos
      have hg : ¬ (0 : Int) < c.gold := fun hpos => by simpa using h Res.gold hpos
      simp [sellLoop, soldValue, zeroPositives, hi, hc, hg]
  | cons r rs ih =>
      intro c money h
      simp only [sellLoop]
      split
      · rename_i hpos
        have hmem : ∀ r', 0 < (c.set r 0).get r' → r' ∈ rs := by
          intro r' h'
          rcases eq_or_ne r' r with rfl | hne
          · rw [ResMap.get_set_self] at h'
            omega
          · rw [ResMap.get_set_ne _ _ _ _ hne.symm] at h'
            rcases List.mem_cons.mp (h r' h') with heq | hmem
            · exact absurd heq hne
            · exact hmem
        rw [ih (c.set r 0) (money + prices r * (c.get r : ℚ)) hmem,
          soldValue_set_zero prices c r hpos, zeroPositives_set_zero c r hpos]
        rw [Prod.mk.injEq]
        refine ⟨by ring, rfl⟩
      · rename_i hneg
        apply ih c money
        intro r' h'
        rcases List.mem_cons.mp (h r' h') with heq | hmem
        · subst heq
          exact absurd h' hneg
        · exact hmem

/-- One price update lands the price in the clamp interval regardless of
the incoming price, momentum and force (the clamp is the last step). -/
theorem priceStep_bounds (base : ℚ) (hb : 0 ≤ base) (pm : ℚ × ℚ) (force : ℚ) :
    base * 0.5 ≤ (priceStep base pm force).1
      ∧ (priceStep base pm force).1 ≤ base * 2.0 := by
  simp only [priceStep]
  constructor
  · exact le_max_left _ _
  · exact max_le (by linarith) (min_le_left _ _)

theorem priceRun_bounds (base : ℚ) (hb : 0 ≤ base) (forces : List ℚ) :
    base * 0.5 ≤ (priceRun base forces).1 ∧ (priceRun base forces).1 ≤ base * 2.0 := by
  have general : ∀ (fs : List ℚ) (pm : ℚ × ℚ),
      base * 0.5 ≤ pm.1 → pm.1 ≤ base * 2.0 →
      base * 0.5 ≤ (fs.foldl (priceStep base) pm).1
        ∧ (fs.foldl (priceStep base) pm).1 ≤ base * 2.0 := by
    intro fs
    induction fs with
    | nil => intro pm h1 h2; exact ⟨h1, h2⟩
    | cons f fs ih =>
        intro pm h1 h2
        simp only [List.foldl_cons]
        have h3 := priceStep_bounds base hb pm f
        exact ih _ h3.1 h3.2
  exact general forces (base, 0) (by linarith) (by linarith)

theorem getElem?_concat_len (p : ℚ) : ∀ t : List ℚ, (t ++ [p])[t.length]? = some p := by
  intro t
  induction t with
  | nil => rfl
  | cons a t ih => simp only [List.cons_append, List.length_cons, List.getElem?_cons_succ]; exact ih

/-! ## Claim theorems -/

/-- C2 counterexample: a mining cart with capacity 50 holding 49 units
stands at the mine; it is not full, so the extraction loop runs and (when
all three per-resource draws succeed) adds one unit of each resource,
leaving 52 > 50 units after the tick.  This refutes
`sum(contents.values()) ≤ capacity` after every operation. -/
theorem cart_capacity_invariant_counterexample :
    50 < (miningTick true false (fun _ => true) resOrder 50 CartState.mining
            ⟨49, 0, 0⟩ ResMap.empty).2.1.total := by
  decide

/-- C2 (amended): the bound `sum(contents) ≤ capacity` holds after
transfer, withdrawal and sale, and spawned/converted carts start empty;
but mining extraction only guarantees `sum(contents) ≤ capacity + 2`,
because it runs whenever the sum is strictly below capacity and can add
one unit of each of the three resources. -/
theorem cart_capacity_bounds :
    (∀ (succ : Res → Bool) (capacity : Int) (c : ResMap),
        c.total ≤ capacity + 2 →
        (miningExtraction succ capacity c).total ≤ capacity + 2)
    ∧ (∀ (order : List Res) (cart storage : ResMap),
        (transferLoop order cart storage).1.total ≤ cart.total)
    ∧ (∀ (capacity : Int) (cart storage : ResMap) (enabled : Flags),
        isFull cart capacity = false →
        (loadFromStation capacity cart storage enabled).2.1.total ≤ capacity)
    ∧ (∀ (prices : Res → ℚ) (order : List Res) (c : ResMap) (money : ℚ),
        (sellLoop prices order c money).2.total ≤ c.total)
    ∧ (∀ (g : GameState) (t : CartType) (c : Cart),
        c ∈ (addCart g t).2.carts → c ∈ g.carts ∨ c.contents.total = 0)
    ∧ (∀ (t : CartType) (c : Cart), (convertCart t c).contents.total = 0) := by
  refine ⟨miningExtraction_bound, transferLoop_cart_le, ?_, sellLoop_total_le, ?_, ?_⟩
  · intro capacity cart storage enabled h
    have hlt : cart.total < capacity := by
      simpa [isFull, not_le] using h
    simp only [loadFromStation, h, Bool.false_eq_true, if_false]
    have h1 := loadLoop_total_le enabled resOrder cart storage
      (capacity - cart.total) false (by omega)
    omega
  · intro g t c hc
    by_cases hm : g.money ≥ (500 : ℚ)
    · simp only [addCart, if_pos hm, List.mem_append] at hc
      rcases hc with hc | hc
      · exact Or.inl hc
      · right
        simp only [List.mem_singleton] at hc
        subst hc
        rfl
    · simp only [addCart, if_neg hm] at hc
      exact Or.inl hc
  · intro t c
    rfl

/-- Witness for `cart_capacity_bounds`: extraction at 49/50 stays within
52, and loading an un-full cart stays within its capacity. -/
theorem cart_capacity_bounds_witness :
    (miningExtraction (fun _ => true) 50 ⟨49, 0, 0⟩).total ≤ 50 + 2
      ∧ (loadFromStation 50 ⟨0, 0, 0⟩ ⟨7, 0, 0⟩ ⟨true, true, true⟩).2.1.total ≤ 50 :=
  ⟨cart_capacity_bounds.1 (fun _ => true) 50 ⟨49, 0, 0⟩ (by decide),
   cart_capacity_bounds.2.2.1 50 ⟨0, 0, 0⟩ ⟨7, 0, 0⟩ ⟨true, true, true⟩ (by decide)⟩

/-- C3: starting from the base value with zero momentum, after any number
of price updates (with arbitrary random forces, which subsumes the
`[-PRICE_VOLATILITY, PRICE_VOLATILITY]` draws) the current price stays in
`[0.5 * base_value, 2.0 * base_value]`. -/
theorem price_bounds_invariant :
    ∀ (base : ℚ) (forces : List ℚ), 0 ≤ base →
      base * 0.5 ≤ (priceRun base forces).1
        ∧ (priceRun base forces).1 ≤ base * 2.0 :=
  fun base forces hb => priceRun_bounds base hb forces

/-- Witness for `price_bounds_invariant` at iron's base value 10 with two
update steps. -/
theorem price_bounds_invariant_witness :
    (10 : ℚ) * 0.5 ≤ (priceRun 10 [0.03, -0.01]).1
      ∧ (priceRun 10 [0.03, -0.01]).1 ≤ (10 : ℚ) * 2.0 :=
  price_bounds_invariant 10 [0.03, -0.01] (by norm_num)

/-- C10: the per-tick cart updates preserve `sum(contents) ≤ capacity + 2`
(capacity plus number of resources minus one): extraction fires only
strictly below capacity and adds at most one unit per resource, and every
other branch (movement, transfer, withdrawal, sale) keeps the total at or
below its previous value or the capacity. -/
theorem tick_capacity_slack_invariant :
    (∀ (atMine atStation : Bool) (succ : Res → Bool) (order : List Res)
        (capacity : Int) (st : CartState) (contents storage : ResMap),
        contents.total ≤ capacity + 2 →
        (miningTick atMine atStation succ order capacity st contents storage).2.1.total
          ≤ capacity + 2)
    ∧ (∀ (atStation atMarket : Bool) (enabled : Flags) (prices : Res → ℚ)
        (order : List Res) (capacity : Int) (st : CartState)
        (contents storage : ResMap) (money : ℚ),
        contents.total ≤ capacity + 2 →
        (marketTick atStation atMarket enabled prices order capacity st
            contents storage money).2.1.total
          ≤ capacity + 2) := by
  constructor
  · intro atMine atStation succ order capacity st contents storage h
    cases st
    · simp only [miningTick]
      split
      · have hb := miningExtraction_bound succ capacity contents h
        split
        · exact hb
        · exact hb
      · exact h
    · simp only [miningTick]
      split
      · have h1 := transferLoop_cart_le order contents storage
        simp only
        omega
      · exact h
    · exact h
    · exact h
  · intro atStation atMarket enabled prices order capacity st contents storage money h
    cases st
    · exact h
    · exact h
    · simp only [marketTick]
      split
      · by_cases hf : isFull contents capacity
        · simp only [loadFromStation, hf, if_true]
          split
          · exact h
          · exact h
        · have hf2 : isFull contents capacity = false := by
            simpa using hf
          have hlt : contents.total < capacity := by
            simpa [isFull, not_le] using hf2
          have h1 := loadLoop_total_le enabled resOrder contents storage
            (capacity - contents.total) false (by omega)
          simp only [loadFromStation, hf2, Bool.false_eq_true, if_false]
          split
          · simp only
            omega
          · simp only
            omega
      · exact h
    · simp only [marketTick]
      split
      · have h1 := sellLoop_total_le prices order contents money
        simp only
        omega
      · exact h

/-- Witness for `tick_capacity_slack_invariant`: one mining tick at the
mine from 49/50, and one market tick loading at the station. -/
theorem tick_capacity_slack_invariant_witness :
    (miningTick true false (fun _ => true) resOrder 50 CartState.mining
        ⟨49, 0, 0⟩ ResMap.empty).2.1.total ≤ 50 + 2
      ∧ (marketTick true false ⟨true, true, true⟩ (fun _ => 60) resOrder 50
          CartState.loading ⟨0, 0, 0⟩ ⟨7, 0, 0⟩ 1000).2.1.total ≤ 50 + 2 :=
  ⟨tick_capacity_slack_invariant.1 true false (fun _ => true) resOrder 50
      CartState.mining ⟨49, 0, 0⟩ ResMap.empty (by decide),
   tick_capacity_slack_invariant.2 true false ⟨true, true, true⟩ (fun _ => 60) resOrder 50
      CartState.loading ⟨0, 0, 0⟩ ⟨7, 0, 0⟩ 1000 (by decide)⟩

/-- C4: `load_from_station` (i) returns `False` without touching any state
when the cart is full; (ii) never touches a resource whose sale is
disabled; (iii) never touches a resource with nonpositive station stock;
(iv) only moves units between storage and cart (per-resource
conservation); (v) returns `True` iff at least one unit was moved; (vi)
stops once cart space is exhausted (the cart never ends above capacity);
and (vii) an eligible resource receives exactly
`min(station_amount, remaining_cart_space)` units at its turn. -/
theorem load_from_station_spec :
    ∀ (capacity : Int) (cart storage : ResMap) (enabled : Flags),
      (isFull cart capacity = true →
        loadFromStation capacity cart storage enabled = (false, cart, storage))
      ∧ (∀ r, enabled.get r = false →
          (loadFromStation capacity cart storage enabled).2.1.get r = cart.get r
            ∧ (loadFromStation capacity cart storage enabled).2.2.get r = storage.get r)
      ∧ (∀ r, storage.get r ≤ 0 →
          (loadFromStation capacity cart storage enabled).2.1.get r = cart.get r
            ∧ (loadFromStation capacity cart storage enabled).2.2.get r = storage.get r)
      ∧ (∀ r, (loadFromStation capacity cart storage enabled).2.1.get r
            + (loadFromStation capacity cart storage enabled).2.2.get r
          = cart.get r + storage.get r)
      ∧ ((loadFromStation capacity cart storage enabled).1 = true ↔
          cart.total < (loadFromStation capacity cart storage enabled).2.1.total)
      ∧ (isFull cart capacity = false →
          (loadFromStation capacity cart storage enabled).2.1.total ≤ capacity)
      ∧ (∀ (c s : ResMap) (space : Int) (r : Res),
          0 < s.get r → enabled.get r = true → 0 < space →
          (loadLoop enabled [r] c s space false).2.1.get r
            = c.get r + min (s.get r) space) := by
  intro capacity cart storage enabled
  by_cases hf : isFull cart capacity
  · have hL : loadFromStation capacity cart storage enabled = (false, cart, storage) := by
      simp [loadFromStation, hf]
    refine ⟨fun _ => hL, ?_, ?_, ?_, ?_, ?_, ?_⟩
    · intro r _
      rw [hL]
      exact ⟨rfl, rfl⟩
    · intro r _
      rw [hL]
      exact ⟨rfl, rfl⟩
    · intro r
      rw [hL]
    · rw [hL]
      simp
    · intro hc
      rw [hf] at hc
      exact absurd hc (by simp)
    · intro c s space r h1 h2 h3
      simp only [loadLoop, if_pos (And.intro h1 h2)]
      split
      · exact ResMap.get_set_self _ _ _
      · simp only [loadLoop]
        exact ResMap.get_set_self _ _ _
  · have hf2 : isFull cart capacity = false := by simpa using hf
    have hlt : cart.total < capacity := by simpa [isFull, not_le] using hf2
    have hL : loadFromStation capacity cart storage enabled
        = loadLoop enabled resOrder cart storage (capacity - cart.total) false := by
      simp [loadFromStation, hf2]
    refine ⟨?_, ?_, ?_, ?_, ?_, ?_, ?_⟩
    · intro hc
      rw [hf2] at hc
      exact absurd hc (by simp)
    · intro r hr
      rw [hL]
      exact loadLoop_disabled_untouched enabled r hr resOrder cart storage _ false
    · intro r hr
      exact hL ▸ loadLoop_nonpos_untouched enabled r resOrder cart storage _ false hr
    · intro r
      exact hL ▸ loadLoop_conserve enabled r resOrder cart storage _ false
    · rw [hL]
      exact loadLoop_loaded_iff enabled resOrder cart storage _ (by omega)
    · intro _
      rw [hL]
      have h1 := loadLoop_total_le enabled resOrder cart storage
        (capacity - cart.total) false (by omega)
      omega
    · intro c s space r h1 h2 h3
      simp only [loadLoop, if_pos (And.intro h1 h2)]
      split
      · exact ResMap.get_set_self _ _ _
      · simp only [loadLoop]
        exact ResMap.get_set_self _ _ _

/-- Witness for `load_from_station_spec`: a full cart is refused
unchanged, a disabled resource is untouched, and an eligible resource
receives exactly `min(amount, space)`. -/
theorem load_from_station_spec_witness :
    loadFromStation 1 ⟨1, 0, 0⟩ ⟨5, 5, 5⟩ ⟨true, true, true⟩ = (false, ⟨1, 0, 0⟩, ⟨5, 5, 5⟩)
      ∧ (loadFromStation 50 ⟨0, 0, 0⟩ ⟨5, 5, 5⟩ ⟨false, true, true⟩).2.1.get Res.iron
          = ResMap.get ⟨0, 0, 0⟩ Res.iron
      ∧ (loadLoop ⟨true, true, true⟩ [Res.iron] ⟨0, 0, 0⟩ ⟨5, 5, 5⟩ 3 false).2.1.get Res.iron
          = ResMap.get ⟨0, 0, 0⟩ Res.iron + min (ResMap.get ⟨5, 5, 5⟩ Res.iron) 3 :=
  ⟨(load_from_station_spec 1 ⟨1, 0, 0⟩ ⟨5, 5, 5⟩ ⟨true, true, true⟩).1 (by decide),
   ((load_from_station_spec 50 ⟨0, 0, 0⟩ ⟨5, 5, 5⟩ ⟨false, true, true⟩).2.1 Res.iron
      (by decide)).1,
   (load_from_station_spec 50 ⟨0, 0, 0⟩ ⟨5, 5, 5⟩ ⟨true, true, true⟩).2.2.2.2.2.2
      ⟨0, 0, 0⟩ ⟨5, 5, 5⟩ 3 Res.iron (by decide) (by decide) (by decide)⟩

/-- C5: with money 1000 and capacity-upgrade cost 1000, the purchase
succeeds, money drops to 0, the global capacity stat is multiplied by
1.5, every existing cart's capacity becomes `int(new_value)`, and the
next capacity cost becomes `int(1000 * 1.5) = 1500`. -/
theorem upgrade_capacity_scenario :
    ∀ g : GameState, g.money = 1000 → g.costs.capacity = 1000 →
      (upgrade g UKind.capacity).1 = true
        ∧ (upgrade g UKind.capacity).2.money = 0
        ∧ (upgrade g UKind.capacity).2.stats.capacity = g.stats.capacity * 1.5
        ∧ (upgrade g UKind.capacity).2.carts
            = g.carts.map (fun c => { c with capacity := pyInt (g.stats.capacity * 1.5) })
        ∧ (upgrade g UKind.capacity).2.costs.capacity = 1500 := by
  intro g h1 h2
  have hcost : g.costs.get UKind.capacity = 1000 := h2
  have hge : g.money ≥ ((g.costs.get UKind.capacity : Int) : ℚ) := by
    rw [hcost, h1]
    norm_num
  simp only [upgrade, if_pos hge, upgradeMultiplier, hcost, h1, UCosts.set]
  refine ⟨rfl, by norm_num, rfl, rfl, ?_⟩
  norm_num [pyInt]

/-- Witness for `upgrade_capacity_scenario` on a one-cart game state with
exactly 1000 money. -/
theorem upgrade_capacity_scenario_witness :
    (upgrade ⟨1000, initStats,
        [⟨720, 450, 50, 100, 3, ResMap.empty, CartType.mining, CartState.mining⟩],
        initCosts⟩ UKind.capacity).1 = true
      ∧ (upgrade ⟨1000, initStats,
          [⟨720, 450, 50, 100, 3, ResMap.empty, CartType.mining, CartState.mining⟩],
          initCosts⟩ UKind.capacity).2.money = 0
      ∧ (upgrade ⟨1000, initStats,
          [⟨720, 450, 50, 100, 3, ResMap.empty, CartType.mining, CartState.mining⟩],
          initCosts⟩ UKind.capacity).2.costs.capacity = 1500 :=
  ⟨(upgrade_capacity_scenario _ rfl rfl).1,
   (upgrade_capacity_scenario _ rfl rfl).2.1,
   (upgrade_capacity_scenario _ rfl rfl).2.2.2.2⟩

/-- C6: with insufficient money, `upgrade` and `add_cart` both return
`False` and leave the full game state (money, stats, carts, costs)
unchanged. -/
theorem insufficient_funds_no_change :
    (∀ (g : GameState) (k : UKind),
        g.money < ((g.costs.get k : Int) : ℚ) → upgrade g k = (false, g))
    ∧ (∀ (g : GameState) (t : CartType),
        g.money < 500 → addCart g t = (false, g)) := by
  constructor
  · intro g k h
    simp only [upgrade, if_neg (not_le.mpr h)]
  · intro g t h
    simp only [addCart, if_neg (not_le.mpr h)]

/-- Witness for `insufficient_funds_no_change` with 0 money against the
initial 1000-cost capacity upgrade and the 500-cost cart spawn. -/
theorem insufficient_funds_no_change_witness :
    upgrade ⟨0, initStats, [], initCosts⟩ UKind.capacity
        = (false, ⟨0, initStats, [], initCosts⟩)
      ∧ addCart ⟨0, initStats, [], initCosts⟩ CartType.market
        = (false, ⟨0, initStats, [], initCosts⟩) :=
  ⟨insufficient_funds_no_change.1 ⟨0, initStats, [], initCosts⟩ UKind.capacity
      (by norm_num [UCosts.get, initCosts]),
   insufficient_funds_no_change.2 ⟨0, initStats, [], initCosts⟩ CartType.market
      (by norm_num)⟩

/-- C7: `sell_cart_resources`, iterating over the contents dict in any
order that covers every positive entry (the dict's key set always does),
adds `market_prices[r] * amount` for each positive resource to the
station money and zeroes exactly the positive entries. -/
theorem sell_cart_resources_spec :
    ∀ (prices : Res → ℚ) (order : List Res) (c : ResMap) (money : ℚ),
      (∀ r, 0 < c.get r → r ∈ order) →
      sellLoop prices order c money = (money + soldValue prices c, zeroPositives c) :=
  sellLoop_spec

/-- Witness for `sell_cart_resources_spec`: the spec scenario — a cart
holding `{gold: 2}` sold at gold price 60 raises money from 1000 to 1120
and zeroes the gold. -/
theorem sell_cart_resources_spec_witness :
    sellLoop (fun _ => (60 : ℚ)) resOrder ⟨0, 0, 2⟩ 1000 = (1120, ⟨0, 0, 0⟩) := by
  have h := sell_cart_resources_spec (fun _ => (60 : ℚ)) resOrder ⟨0, 0, 2⟩ 1000
    (fun r _ => mem_resOrder r)
  rw [h]
  norm_num [soldValue, zeroPositives, ResMap.get]

/-- C8: the price history starts with exactly `PRICE_HISTORY_LENGTH = 50`
entries, and each update step keeps the length at 50, shifts every
surviving entry one position toward the front (FIFO eviction of the
oldest entry, which is at index 0) and appends the new price at the
end. -/
theorem price_history_fifo :
    (∀ p : ℚ, (initHistory p).length = PRICE_HISTORY_LENGTH)
    ∧ (∀ (h : List ℚ) (p : ℚ), h.length = PRICE_HISTORY_LENGTH →
        (historyStep h p).length = PRICE_HISTORY_LENGTH
          ∧ (∀ i : Nat, i + 1 < h.length → (historyStep h p)[i]? = h[i + 1]?)
          ∧ (historyStep h p)[h.length - 1]? = some p) := by
  constructor
  · intro p
    simp [initHistory]
  · intro h p hlen
    cases h with
    | nil => simp [PRICE_HISTORY_LENGTH] at hlen
    | cons a t =>
        refine ⟨?_, ?_, ?_⟩
        · simp only [historyStep, List.tail_cons, List.length_append,
            List.length_cons, List.length_nil] at *
          omega
        · intro i hi
          simp only [List.length_cons] at hi
          simp only [historyStep, List.tail_cons, List.getElem?_cons_succ]
          rw [List.getElem?_append_left (by omega)]
        · simp only [historyStep, List.tail_cons, List.length_cons,
            Nat.add_sub_cancel]
          exact getElem?_concat_len p t

/-- Witness for `price_history_fifo` on the length-50 initial history at
price 10, updated with price 11. -/
theorem price_history_fifo_witness :
    (historyStep (initHistory 10) 11).length = PRICE_HISTORY_LENGTH
      ∧ (historyStep (initHistory 10) 11)[(initHistory (10 : ℚ)).length - 1]? = some 11 :=
  ⟨(price_history_fifo.2 (initHistory 10) 11 (by simp [initHistory])).1,
   (price_history_fifo.2 (initHistory 10) 11 (by simp [initHistory])).2.2⟩

/-- C9: the arrival test `dist < POSITION_TOLERANCE` (stated over the
squared distance, which is equivalent since both sides are nonnegative)
is true whenever the distance is zero — so the cart is treated as
arrived and the normalisation `(dx / dist, dy / dist)` in the `else`
branch is never evaluated — and whenever the movement branch does run,
the squared distance is at least `POSITION_TOLERANCE² = 100`, so the
divisor is nonzero. -/
theorem no_division_by_zero_guard :
    ∀ dx dy : ℚ,
      (dx ^ 2 + dy ^ 2 = 0 → arrivedQ dx dy = true)
        ∧ (arrivedQ dx dy = false →
            POSITION_TOLERANCE ^ 2 ≤ dx ^ 2 + dy ^ 2 ∧ dx ^ 2 + dy ^ 2 ≠ 0) := by
  intro dx dy
  constructor
  · intro h
    simp only [arrivedQ, h, POSITION_TOLERANCE, decide_eq_true_eq]
    norm_num
  · intro h
    have h1 : ¬ (dx ^ 2 + dy ^ 2 < POSITION_TOLERANCE ^ 2) := by
      simpa [arrivedQ] using h
    have h2 : POSITION_TOLERANCE ^ 2 ≤ dx ^ 2 + dy ^ 2 := not_lt.mp h1
    refine ⟨h2, ?_⟩
    have h3 : (0 : ℚ) < POSITION_TOLERANCE ^ 2 := by norm_num [POSITION_TOLERANCE]
    intro heq
    rw [heq] at h2
    linarith

/-- Witness for `no_division_by_zero_guard` at the zero vector. -/
theorem no_division_by_zero_guard_witness : arrivedQ 0 0 = true :=
  (no_division_by_zero_guard 0 0).1 (by norm_num)
